import Mathlib

/-!
Verification of the statistical analysis engine of the datasets microservice
(`server.js`): descriptive statistics (mean, median, stddev, min, max),
trailing moving averages, Pearson correlation with qualitative interpretation,
and date-range filtering.

Numbers are modelled as exact rationals (`ℚ`); the square roots taken by
`stddev` and `pearson` land in `ℝ`.  The dynamically-typed paths of the code,
where a record may lack the requested field (JavaScript `undefined`) and
arithmetic then produces `NaN`, are modelled by `Option ℚ` with `none`
standing for the non-numeric values (`undefined` / `NaN`), which propagate
through addition, division and `toFixed` exactly as in JavaScript.
-/

namespace Server

/-- `mean(arr)` core (server.js:105-109): sum of the list divided by its
length.  The `reduce((a, b) => a + b, 0)` is the list sum. -/
def meanQ (arr : List ℚ) : ℚ := arr.sum / arr.length

/-- `mean(arr)` (server.js:105-109): `null` (here `none`) on the empty list,
otherwise the arithmetic mean. -/
def mean (arr : List ℚ) : Option ℚ :=
  if arr.length = 0 then none else some (meanQ arr)

/-- `median(arr)` (server.js:111-116): `null` on empty input; otherwise sort
ascending, take the middle element, or the average of the two middle elements
when the length is even.  `Math.floor(a.length / 2)` is natural division. -/
def median (arr : List ℚ) : Option ℚ :=
  if arr.length = 0 then none
  else
    let a := arr.insertionSort (· ≤ ·)
    let mid := arr.length / 2
    if arr.length % 2 = 0 then some ((a.getD (mid - 1) 0 + a.getD mid 0) / 2)
    else some (a.getD mid 0)

/-- `Math.min(...values)` (server.js:216) on the argument list: `none` models
the no-argument result (`Infinity` is never produced on the non-empty inputs
the routes supply). -/
def listMin : List ℚ → Option ℚ
  | [] => none
  | x :: xs => some (xs.foldl min x)

/-- `Math.max(...values)` (server.js:217) on the argument list. -/
def listMax : List ℚ → Option ℚ
  | [] => none
  | x :: xs => some (xs.foldl max x)

/-- The deviations `v - m` from the list's own mean, as accumulated by the
loops of `stddev` (server.js:121) and `pearson` (server.js:143-149). -/
def devList (arr : List ℚ) : List ℚ := arr.map (fun v => v - meanQ arr)

/-- Pairwise product sum `Σ l₁ᵢ · l₂ᵢ`, the accumulation pattern of the
`pearson` loop (server.js:143-149); excess elements of the longer list are
ignored (the loop runs to the common length `n`). -/
def sumProd : List ℚ → List ℚ → ℚ
  | x :: xs, y :: ys => x * y + sumProd xs ys
  | _, _ => 0

/-- Sum of squares `Σ lᵢ²`: the accumulators `denx`/`deny` of `pearson` and
the squared-deviation sum of `stddev` (server.js:121,147-148). -/
def sumSq (l : List ℚ) : ℚ := sumProd l l

/-- `stddev(arr)` (server.js:118-123): `null` on empty input, else the
population standard deviation `sqrt(Σ(v - m)² / n)`. -/
noncomputable def stddev (arr : List ℚ) : Option ℝ :=
  if arr.length = 0 then none
  else some (Real.sqrt ((sumSq (devList arr) / arr.length : ℚ) : ℝ))

section
open Classical

/-- `pearson(x, y)` (server.js:135-153): `null` on mismatched lengths or empty
input; `denom = sqrt(denx * deny)`; returns `0` when `denom === 0`, else
`num / denom`. -/
noncomputable def pearson (x y : List ℚ) : Option ℝ :=
  if x.length ≠ y.length ∨ x.length = 0 then none
  else if Real.sqrt ((sumSq (devList x) : ℝ) * (sumSq (devList y) : ℝ)) = 0 then some 0
  else some ((sumProd (devList x) (devList y) : ℝ) /
    Real.sqrt ((sumSq (devList x) : ℝ) * (sumSq (devList y) : ℝ)))

/-- The correlation route's interpretation cascade (server.js:268-273).  The
initial value "No clear correlation" is overwritten on every path, so the
cascade is a first-match-wins chain ending in "Weak or no correlation". -/
noncomputable def interpretation (r : ℝ) : String :=
  if r ≥ 0.7 then "Strong positive correlation"
  else if r ≥ 0.4 then "Moderate positive correlation"
  else if r ≤ -0.7 then "Strong negative correlation"
  else if r ≤ -0.4 then "Moderate negative correlation"
  else "Weak or no correlation"

end

/-- A JavaScript numeric value on the dynamically-typed paths: `none` is the
non-numeric case (`undefined` for a missing record field, `NaN` once it has
passed through arithmetic), `some q` is a plain number. -/
abbrev JNum := Option ℚ

/-- JavaScript `+` on such values: any non-numeric operand poisons the result
(`0 + undefined` and `NaN + x` are `NaN`). -/
def jadd (a b : JNum) : JNum :=
  match a, b with
  | some x, some y => some (x + y)
  | _, _ => none

/-- `arr.reduce((a, b) => a + b, 0)` (server.js:107) over possibly-missing
values. -/
def jsum (l : List JNum) : JNum := l.foldl jadd (some 0)

/-- `mean(arr)` (server.js:105-109) on the dynamically-typed trends path:
outer `none` is the `null` returned for an empty list; an inner `none` is the
`NaN` produced when some element was `undefined`. -/
def jmean (arr : List JNum) : Option JNum :=
  if arr.length = 0 then none
  else some ((jsum arr).map (fun s => s / (arr.length : ℚ)))

/-- `Number(q.toFixed(6))`: round to six decimal digits.  ECMA-262 `toFixed`
picks the closest multiple of 10⁻⁶, ties toward +∞, which is `⌊q·10⁶ + ½⌋`. -/
def round6 (q : ℚ) : ℚ := (⌊q * 1000000 + 1 / 2⌋ : ℚ) / 1000000

/-- `Number(v.toFixed(6))` on a JavaScript value: `NaN.toFixed(6)` is `"NaN"`
and `Number("NaN")` is `NaN`, so `none` maps to `none`. -/
def jround6 : JNum → JNum := Option.map round6

/-- `movingAverage(arr, windowSize)` (server.js:125-133): for each index `i`,
average of `arr.slice(max(0, i - windowSize + 1), i + 1)` rounded to six
digits.  The slice is written `(arr.take (i+1)).drop (i+1-windowSize)`, which
(by natural-number truncation) starts at `max 0 (i - windowSize + 1)`.  The
`none` branch of the match is unreachable for `windowSize ≥ 1`: the slice then
contains `arr[i]`, so `mean` does not return `null`. -/
def movingAverage (arr : List JNum) (windowSize : ℕ) : List JNum :=
  (List.range arr.length).map fun i =>
    match jmean ((arr.take (i + 1)).drop (i + 1 - windowSize)) with
    | some v => jround6 v
    | none => none

/-- A dataset record: the parse result of `new Date(s.date + "T00:00:00Z")`
(`none` is an `Invalid Date`, `some d` a UTC-midnight timestamp, in days) and
the record's named numeric fields. -/
structure DRec where
  date : Option ℤ
  vals : List (String × ℚ)
deriving DecidableEq

/-- `s[param]` on a record: the field's value, or `undefined` (`none`) when
the record lacks the field. -/
def getParam (r : DRec) (p : String) : Option ℚ := r.vals.lookup p

/-- JavaScript `<` on two `Date` values: `false` whenever either side is an
`Invalid Date` (its time value is `NaN`). -/
def jslt (a b : Option ℤ) : Bool :=
  match a, b with
  | some x, some y => decide (x < y)
  | _, _ => false

/-- JavaScript `>` on two `Date` values, same `NaN` behaviour. -/
def jsgt (a b : Option ℤ) : Bool :=
  match a, b with
  | some x, some y => decide (x > y)
  | _, _ => false

/-- `filterByDateRange(series, from, to)` (server.js:156-166).  A bound is
`none` when not supplied (falsy query string), `some none` when supplied but
unparseable (`new Date` gave `Invalid Date`), `some (some t)` when valid.
Unsupplied both: the input is returned as is; otherwise a record is dropped
when `fromDate && d < fromDate` or `toDate && d > toDate`. -/
def filterByDateRange (series : List DRec) (fromB toB : Option (Option ℤ)) :
    List DRec :=
  if fromB = none ∧ toB = none then series
  else series.filter fun s =>
    !(match fromB with | some f => jslt s.date f | none => false) &&
    !(match toB with | some t => jsgt s.date t | none => false)

/-- One element of the trends route's response (server.js:244). -/
structure TrendPoint where
  date : Option ℤ
  value : Option ℚ
  moving_average : Option ℚ
deriving DecidableEq

/-- The trends route's core (server.js:239-244): extract the parameter column
(`undefined` for missing fields), take the moving average, and pair each
record with `Number(ma[idx].toFixed(6))`. -/
def trendPoints (series : List DRec) (param : String) (window : ℕ) :
    List TrendPoint :=
  List.zipWith (fun s m => ⟨s.date, getParam s param, jround6 m⟩) series
    (movingAverage (series.map fun s => getParam s param) window)

/-! ### Helper lemmas -/

lemma pearson_ones_to_five :
    pearson [1, 2, 3, 4, 5] [5, 4, 3, 2, 1] = some (-1) := by
  have hnum : sumProd (devList [1, 2, 3, 4, 5]) (devList [5, 4, 3, 2, 1]) = -10 := by
    norm_num [sumProd, devList, meanQ]
  have hdx : sumSq (devList ([1, 2, 3, 4, 5] : List ℚ)) = 10 := by
    norm_num [sumSq, sumProd, devList, meanQ]
  have hdy : sumSq (devList ([5, 4, 3, 2, 1] : List ℚ)) = 10 := by
    norm_num [sumSq, sumProd, devList, meanQ]
  have hsqrt : Real.sqrt ((sumSq (devList [1, 2, 3, 4, 5]) : ℝ) *
      (sumSq (devList [5, 4, 3, 2, 1]) : ℝ)) = 10 := by
    rw [hdx, hdy]
    push_cast
    rw [show (10 : ℝ) * 10 = 10 ^ 2 by norm_num, Real.sqrt_sq (by norm_num)]
  unfold pearson
  rw [if_neg (by decide : ¬(([1, 2, 3, 4, 5] : List ℚ).length ≠
      ([5, 4, 3, 2, 1] : List ℚ).length ∨ ([1, 2, 3, 4, 5] : List ℚ).length = 0))]
  rw [hsqrt, if_neg (by norm_num : (10 : ℝ) ≠ 0), hnum]
  norm_num

/-! ### C1: interpretation cascade -/

/-- C1: the interpretation label is chosen by the first-match-wins cascade
with exactly the stated thresholds and order; in particular
`x = [1,2,3,4,5]`, `y = [5,4,3,2,1]` gives `r = -1` and "Strong negative
correlation" (the strong-negative branch is not shadowed by the positive
branches). -/
theorem interpretation_cascade :
    (∀ r : ℝ,
      (0.7 ≤ r → interpretation r = "Strong positive correlation") ∧
      (0.4 ≤ r → r < 0.7 → interpretation r = "Moderate positive correlation") ∧
      (r ≤ -0.7 → interpretation r = "Strong negative correlation") ∧
      (-0.7 < r → r ≤ -0.4 → interpretation r = "Moderate negative correlation") ∧
      (-0.4 < r → r < 0.4 → interpretation r = "Weak or no correlation")) ∧
    pearson [1, 2, 3, 4, 5] [5, 4, 3, 2, 1] = some (-1) ∧
    interpretation (-1) = "Strong negative correlation" := by
  refine ⟨fun r => ?_, pearson_ones_to_five, ?_⟩
  · unfold interpretation
    refine ⟨fun h1 => ?_, fun h1 h2 => ?_, fun h1 => ?_, fun h1 h2 => ?_,
      fun h1 h2 => ?_⟩ <;> split_ifs <;> first | rfl | linarith
  · unfold interpretation
    norm_num

/-- Witness for C1 at the concrete value r = 0.5. -/
theorem interpretation_cascade_witness :
    (0.4 : ℝ) ≤ 0.5 ∧ (0.5 : ℝ) < 0.7 ∧
    interpretation 0.5 = "Moderate positive correlation" :=
  ⟨by norm_num, by norm_num,
    (interpretation_cascade.1 0.5).2.1 (by norm_num) (by norm_num)⟩

/-! ### C2: zero denominator gives r = 0 -/

/-- C2: on equal-length non-empty numeric input, when the Pearson denominator
`sqrt(Σ(xᵢ-x̄)² · Σ(yᵢ-ȳ)²)` is exactly zero, `pearson` returns exactly `0`:
a plain numeric result, not an error and not NaN. -/
theorem pearson_zero_denominator (x y : List ℚ) (hlen : x.length = y.length)
    (hne : x.length ≠ 0)
    (hden : Real.sqrt ((sumSq (devList x) : ℝ) * (sumSq (devList y) : ℝ)) = 0) :
    pearson x y = some 0 := by
  unfold pearson
  rw [if_neg (by omega : ¬(x.length ≠ y.length ∨ x.length = 0)), if_pos hden]

/-- Witness for C2: `x = [1,2]`, `y = [3,3]` (zero variance in y). -/
theorem pearson_zero_denominator_witness :
    ([1, 2] : List ℚ).length = ([3, 3] : List ℚ).length ∧
    ([1, 2] : List ℚ).length ≠ 0 ∧
    Real.sqrt ((sumSq (devList [1, 2]) : ℝ) * (sumSq (devList [3, 3]) : ℝ)) = 0 ∧
    pearson [1, 2] [3, 3] = some 0 := by
  have h0 : sumSq (devList ([3, 3] : List ℚ)) = 0 := by
    norm_num [sumSq, sumProd, devList, meanQ]
  have h3 : Real.sqrt ((sumSq (devList [1, 2]) : ℝ) *
      (sumSq (devList [3, 3]) : ℝ)) = 0 := by
    rw [h0]; simp
  exact ⟨rfl, by decide, h3, pearson_zero_denominator _ _ rfl (by decide) h3⟩

/-! ### Moving-average helper lemmas -/

lemma jsum_foldl_some (l : List ℚ) : ∀ q : ℚ,
    List.foldl jadd (some q) (l.map some) = some (q + l.sum) := by
  induction l with
  | nil => intro q; simp
  | cons a l ih =>
    intro q
    simp only [List.map_cons, List.foldl_cons, jadd, List.sum_cons]
    rw [ih (q + a)]
    ring_nf

lemma jsum_map_some (l : List ℚ) : jsum (l.map some) = some l.sum := by
  simpa using jsum_foldl_some l 0

lemma jmean_map_some (l : List ℚ) (h : l.length ≠ 0) :
    jmean (l.map some) = some (some (meanQ l)) := by
  unfold jmean meanQ
  rw [List.length_map, if_neg h, jsum_map_some]
  rfl

lemma movingAverage_map_some_getD (a : List ℚ) (W : ℕ) (hW : 0 < W) (i : ℕ)
    (hi : i < a.length) :
    (movingAverage (a.map some) W).getD i none
      = some (round6 (meanQ ((a.take (i + 1)).drop (i + 1 - W)))) := by
  have hlen : (movingAverage (a.map some) W).length = a.length := by
    simp [movingAverage]
  rw [List.getD_eq_getElem?_getD, List.getElem?_eq_getElem (hlen ▸ hi)]
  simp only [movingAverage, List.getElem_map, List.getElem_range, Option.getD_some]
  rw [← List.map_take, ← List.map_drop]
  have hne : ((a.take (i + 1)).drop (i + 1 - W)).length ≠ 0 := by
    simp only [List.length_drop, List.length_take]
    omega
  rw [jmean_map_some _ hne]
  rfl

lemma jsum_foldl_isSome (l : List JNum) (h : ∀ v ∈ l, v.isSome) :
    ∀ acc : JNum, acc.isSome → (List.foldl jadd acc l).isSome := by
  induction l with
  | nil => intro acc hacc; simpa using hacc
  | cons a l ih =>
    intro acc hacc
    simp only [List.foldl_cons]
    refine ih (fun v hv => h v (List.mem_cons_of_mem _ hv)) _ ?_
    have ha := h a (List.mem_cons_self a l)
    rcases acc with _ | x
    · simp at hacc
    rcases a with _ | y
    · simp at ha
    · simp [jadd]

lemma movingAverage_getD_isSome (arr : List JNum) (W : ℕ) (hW : 0 < W)
    (h : ∀ v ∈ arr, v.isSome) (i : ℕ) (hi : i < arr.length) :
    ((movingAverage arr W).getD i none).isSome := by
  have hlen : (movingAverage arr W).length = arr.length := by simp [movingAverage]
  rw [List.getD_eq_getElem?_getD, List.getElem?_eq_getElem (hlen ▸ hi)]
  simp only [movingAverage, List.getElem_map, List.getElem_range, Option.getD_some]
  have hne : ((arr.take (i + 1)).drop (i + 1 - W)).length ≠ 0 := by
    simp only [List.length_drop, List.length_take]
    omega
  have hsome : (jsum ((arr.take (i + 1)).drop (i + 1 - W))).isSome := by
    refine jsum_foldl_isSome _ (fun v hv => ?_) _ rfl
    exact h v (List.mem_of_mem_take (List.mem_of_mem_drop hv))
  unfold jmean
  rw [if_neg hne]
  rcases Option.isSome_iff_exists.1 hsome with ⟨q, hq⟩
  rw [hq]
  simp [jround6]

/-! ### C3: moving average is the rounded trailing-window mean -/

/-- C3 counterexample: the engine rounds inside `movingAverage`
(server.js:130), so the element is not the full-precision window mean:
on `[1, 1, 2]` with window 3 the last element is `1333333/1000000`, not
`4/3`. -/
theorem movingAverage_not_unrounded :
    (movingAverage ([1, 1, 2].map some) 3).getD 2 none = some (1333333 / 1000000) ∧
    meanQ [1, 1, 2] = 4 / 3 ∧
    (movingAverage ([1, 1, 2].map some) 3).getD 2 none ≠ some (meanQ [1, 1, 2]) := by
  have hmean : meanQ ([1, 1, 2] : List ℚ) = 4 / 3 := by norm_num [meanQ]
  have h := movingAverage_map_some_getD [1, 1, 2] 3 (by norm_num) 2 (by norm_num)
  rw [show (([1, 1, 2] : List ℚ).take (2 + 1)).drop (2 + 1 - 3) = [1, 1, 2] from rfl,
    hmean] at h
  have hr : round6 ((4 : ℚ) / 3) = 1333333 / 1000000 := by
    unfold round6
    rw [show ⌊(4 / 3 : ℚ) * 1000000 + 1 / 2⌋ = 1333333 by
      rw [Int.floor_eq_iff]
      norm_num]
    norm_num
  rw [hr] at h
  exact ⟨h, hmean, by rw [h, hmean]; norm_num⟩

/-- C3 amended: `movingAverage(a, W)` (for positive `W`, all values present)
has the same length as `a`, and its element at `i` is the arithmetic mean of
the trailing inclusive window `a[max(0, i-W+1)] .. a[i]` rounded to six
decimal digits (the engine rounds; it is not the full-precision mean).  The
spec example `[1,2,3,4,5,6,7]`, `W = 3` is exact at six digits, so it still
yields `[1, 1.5, 2, 3, 4, 5, 6]`. -/
theorem movingAverage_window_mean (a : List ℚ) (W : ℕ) (hW : 0 < W) :
    (movingAverage (a.map some) W).length = a.length ∧
    ∀ i, i < a.length →
      (movingAverage (a.map some) W).getD i none
        = some (round6 (meanQ ((a.take (i + 1)).drop (i + 1 - W)))) :=
  ⟨by simp [movingAverage], fun i hi => movingAverage_map_some_getD a W hW i hi⟩

/-- Witness for C3 at the spec's example `[1,2,3,4,5,6,7]`, `W = 3`. -/
theorem movingAverage_window_mean_witness :
    (0 : ℕ) < 3 ∧
    (movingAverage ([1, 2, 3, 4, 5, 6, 7].map some) 3).length = 7 ∧
    (movingAverage ([1, 2, 3, 4, 5, 6, 7].map some) 3).getD 4 none
      = some (round6 (meanQ (([1, 2, 3, 4, 5, 6, 7].take (4 + 1)).drop (4 + 1 - 3)))) ∧
    round6 (meanQ (([1, 2, 3, 4, 5, 6, 7].take (4 + 1)).drop (4 + 1 - 3))) = 4 := by
  refine ⟨by norm_num,
    (movingAverage_window_mean [1, 2, 3, 4, 5, 6, 7] 3 (by norm_num)).1,
    (movingAverage_window_mean [1, 2, 3, 4, 5, 6, 7] 3 (by norm_num)).2 4 (by norm_num),
    ?_⟩
  rw [show (([1, 2, 3, 4, 5, 6, 7] : List ℚ).take (4 + 1)).drop (4 + 1 - 3)
      = [3, 4, 5] from rfl]
  have hmean : meanQ ([3, 4, 5] : List ℚ) = 4 := by norm_num [meanQ]
  rw [hmean]
  unfold round6
  rw [show ⌊(4 : ℚ) * 1000000 + 1 / 2⌋ = 4000000 by
    rw [Int.floor_eq_iff]
    norm_num]
  norm_num

/-! ### C8: trends moving_average and absent values -/

/-- C8 counterexample: when a record lacks the requested parameter, the
extracted `undefined` poisons the window sum (server.js:241 does not filter
absent values), so `moving_average` is NaN — not a number. -/
theorem trends_absent_nan :
    trendPoints [⟨some 1, []⟩] "temperature" 7 = [⟨some 1, none, none⟩] ∧
    ((trendPoints [⟨some 1, []⟩] "temperature" 7).getD 0
      ⟨none, none, none⟩).moving_average = none ∧
    ((trendPoints [⟨some 1, []⟩] "temperature" 7).getD 0
      ⟨none, none, none⟩).moving_average.isSome = false :=
  ⟨rfl, rfl, rfl⟩

/-- C8 amended: when every record carries the requested parameter (and the
window is positive), every produced TrendPoint's `moving_average` is a
number; a record lacking the parameter instead yields NaN for the windows
that cover it. -/
theorem trends_moving_average_number (series : List DRec) (param : String)
    (window : ℕ) (hW : 0 < window)
    (hall : ∀ s ∈ series, (getParam s param).isSome) :
    ∀ i, i < (trendPoints series param window).length →
      (((trendPoints series param window).getD i
        ⟨none, none, none⟩).moving_average).isSome := by
  intro i hi
  have hmaLen : (movingAverage (series.map fun s => getParam s param) window).length
      = series.length := by simp [movingAverage]
  have hiS : i < series.length := by
    simpa [trendPoints, hmaLen] using hi
  have hiM : i < (movingAverage (series.map fun s => getParam s param) window).length :=
    by omega
  rw [trendPoints, List.getD_eq_getElem?_getD,
    List.getElem?_eq_getElem (by simpa [trendPoints, hmaLen] using hi),
    List.getElem_zipWith]
  simp only [Option.getD_some]
  have hms : ((movingAverage (series.map fun s => getParam s param) window).getD i
      none).isSome := by
    refine movingAverage_getD_isSome _ window hW ?_ i (by simpa [hmaLen] using hiS)
    intro v hv
    rcases List.mem_map.1 hv with ⟨s, hs, rfl⟩
    exact hall s hs
  rw [List.getD_eq_getElem?_getD, List.getElem?_eq_getElem hiM] at hms
  simp only [Option.getD_some] at hms
  rcases Option.isSome_iff_exists.1 hms with ⟨q, hq⟩
  simp [hq, jround6]

/-- Witness for C8 on a one-record series that carries the parameter. -/
theorem trends_moving_average_number_witness :
    (0 : ℕ) < 7 ∧
    (∀ s ∈ ([⟨some 1, [("t", 5)]⟩] : List DRec), (getParam s "t").isSome) ∧
    ∀ i, i < (trendPoints [⟨some 1, [("t", 5)]⟩] "t" 7).length →
      (((trendPoints [⟨some 1, [("t", 5)]⟩] "t" 7).getD i
        ⟨none, none, none⟩).moving_average).isSome :=
  ⟨by norm_num, by decide,
    trends_moving_average_number [⟨some 1, [("t", 5)]⟩] "t" 7 (by norm_num) (by decide)⟩

/-! ### Order-statistics helper lemmas -/

lemma foldl_min_le_init (xs : List ℚ) : ∀ x : ℚ, xs.foldl min x ≤ x := by
  induction xs with
  | nil => intro x; exact le_refl x
  | cons a xs ih =>
    intro x
    exact le_trans (ih (min x a)) (min_le_left x a)

lemma foldl_min_le_mem (xs : List ℚ) : ∀ x v : ℚ, v ∈ xs → xs.foldl min x ≤ v := by
  induction xs with
  | nil => intro x v hv; simp at hv
  | cons a xs ih =>
    intro x v hv
    rcases List.mem_cons.1 hv with rfl | hv
    · exact le_trans (foldl_min_le_init xs (min x v)) (min_le_right x v)
    · exact ih (min x a) v hv

lemma listMin_le (l : List ℚ) (m : ℚ) (h : listMin l = some m) :
    ∀ v ∈ l, m ≤ v := by
  cases l with
  | nil => simp [listMin] at h
  | cons x xs =>
    simp only [listMin, Option.some.injEq] at h
    subst h
    intro v hv
    rcases List.mem_cons.1 hv with rfl | hv
    · exact foldl_min_le_init xs v
    · exact foldl_min_le_mem xs x v hv

lemma init_le_foldl_max (xs : List ℚ) : ∀ x : ℚ, x ≤ xs.foldl max x := by
  induction xs with
  | nil => intro x; exact le_refl x
  | cons a xs ih =>
    intro x
    exact le_trans (le_max_left x a) (ih (max x a))

lemma mem_le_foldl_max (xs : List ℚ) : ∀ x v : ℚ, v ∈ xs → v ≤ xs.foldl max x := by
  induction xs with
  | nil => intro x v hv; simp at hv
  | cons a xs ih =>
    intro x v hv
    rcases List.mem_cons.1 hv with rfl | hv
    · exact le_trans (le_max_right x v) (init_le_foldl_max xs (max x v))
    · exact ih (max x a) v hv

lemma le_listMax (l : List ℚ) (M : ℚ) (h : listMax l = some M) :
    ∀ v ∈ l, v ≤ M := by
  cases l with
  | nil => simp [listMax] at h
  | cons x xs =>
    simp only [listMax, Option.some.injEq] at h
    subst h
    intro v hv
    rcases List.mem_cons.1 hv with rfl | hv
    · exact init_le_foldl_max xs v
    · exact mem_le_foldl_max xs x v hv

lemma card_mul_le_sum (l : List ℚ) (m : ℚ) (h : ∀ v ∈ l, m ≤ v) :
    (l.length : ℚ) * m ≤ l.sum := by
  induction l with
  | nil => simp
  | cons a l ih =>
    have ha := h a (List.mem_cons_self a l)
    have hl := ih (fun v hv => h v (List.mem_cons_of_mem _ hv))
    simp only [List.length_cons, List.sum_cons]
    push_cast
    nlinarith

lemma sum_le_card_mul (l : List ℚ) (M : ℚ) (h : ∀ v ∈ l, v ≤ M) :
    l.sum ≤ (l.length : ℚ) * M := by
  induction l with
  | nil => simp
  | cons a l ih =>
    have ha := h a (List.mem_cons_self a l)
    have hl := ih (fun v hv => h v (List.mem_cons_of_mem _ hv))
    simp only [List.length_cons, List.sum_cons]
    push_cast
    nlinarith

lemma meanQ_between (l : List ℚ) (m M : ℚ) (hne : l.length ≠ 0)
    (hm : ∀ v ∈ l, m ≤ v) (hM : ∀ v ∈ l, v ≤ M) :
    m ≤ meanQ l ∧ meanQ l ≤ M := by
  have hpos : (0 : ℚ) < l.length := by
    have : 0 < l.length := Nat.pos_of_ne_zero hne
    exact_mod_cast this
  constructor
  · rw [meanQ, le_div_iff₀ hpos]
    have := card_mul_le_sum l m hm
    linarith
  · rw [meanQ, div_le_iff₀ hpos]
    have := sum_le_card_mul l M hM
    linarith

lemma getD_mem (l : List ℚ) (i : ℕ) (h : i < l.length) : l.getD i 0 ∈ l := by
  rw [List.getD_eq_getElem?_getD, List.getElem?_eq_getElem h]
  exact List.getElem_mem h

/-! ### C5: min ≤ median ≤ max and min ≤ mean ≤ max -/

/-- C5: for a non-empty numeric sequence, the summary's order statistics
satisfy `min ≤ median ≤ max` and `min ≤ mean ≤ max` (median = middle of the
ascending sort, or average of the two middles; min/max = extrema, as in the
summary route, server.js:213-217). -/
theorem summary_order_stats (values : List ℚ) (mn mx m md : ℚ)
    (hmn : listMin values = some mn) (hmx : listMax values = some mx)
    (hm : mean values = some m) (hmd : median values = some md) :
    mn ≤ md ∧ md ≤ mx ∧ mn ≤ m ∧ m ≤ mx := by
  have hlen : values.length ≠ 0 := by
    intro h0
    rw [List.length_eq_zero] at h0
    subst h0
    simp [listMin] at hmn
  have hmin_all := listMin_le values mn hmn
  have hmax_all := le_listMax values mx hmx
  have hmean : m = meanQ values := by
    rw [mean, if_neg hlen] at hm
    exact (Option.some.injEq _ _ ▸ hm).symm
  have hmean_bounds := meanQ_between values mn mx hlen hmin_all hmax_all
  -- the sorted list is a permutation, so its entries satisfy the same bounds
  have hperm := List.perm_insertionSort (α := ℚ) (· ≤ ·) values
  have hsorted_len : (values.insertionSort (· ≤ ·)).length = values.length :=
    hperm.length_eq
  have hmem : ∀ i, i < values.length →
      mn ≤ (values.insertionSort (· ≤ ·)).getD i 0 ∧
      (values.insertionSort (· ≤ ·)).getD i 0 ≤ mx := by
    intro i hi
    have hmemi : (values.insertionSort (· ≤ ·)).getD i 0 ∈ values :=
      hperm.mem_iff.1 (getD_mem _ i (by omega))
    exact ⟨hmin_all _ hmemi, hmax_all _ hmemi⟩
  have hmedian : mn ≤ md ∧ md ≤ mx := by
    rw [median, if_neg hlen] at hmd
    by_cases hpar : values.length % 2 = 0
    · rw [if_pos hpar, Option.some.injEq] at hmd
      have h1 := hmem (values.length / 2 - 1) (by omega)
      have h2 := hmem (values.length / 2) (by omega)
      constructor <;> [linarith [h1.1, h2.1]; linarith [h1.2, h2.2]]
    · rw [if_neg hpar, Option.some.injEq] at hmd
      have h2 := hmem (values.length / 2) (by omega)
      exact hmd ▸ ⟨h2.1, h2.2⟩
  exact ⟨hmedian.1, hmedian.2, hmean ▸ hmean_bounds.1, hmean ▸ hmean_bounds.2⟩

/-- Witness for C5 at the spec's example `[1,2,3,4,5]`. -/
theorem summary_order_stats_witness :
    listMin [1, 2, 3, 4, 5] = some 1 ∧ listMax [1, 2, 3, 4, 5] = some 5 ∧
    mean [1, 2, 3, 4, 5] = some 3 ∧ median [1, 2, 3, 4, 5] = some 3 ∧
    ((1 : ℚ) ≤ 3 ∧ (3 : ℚ) ≤ 5 ∧ (1 : ℚ) ≤ 3 ∧ (3 : ℚ) ≤ 5) := by
  have hmn : listMin [1, 2, 3, 4, 5] = some 1 := by norm_num [listMin, min_def]
  have hmx : listMax [1, 2, 3, 4, 5] = some 5 := by norm_num [listMax, max_def]
  have hm : mean [1, 2, 3, 4, 5] = some 3 := by norm_num [mean, meanQ]
  have hmd : median [1, 2, 3, 4, 5] = some 3 := by
    norm_num [median, List.insertionSort, List.orderedInsert]
  exact ⟨hmn, hmx, hm, hmd, summary_order_stats [1, 2, 3, 4, 5] 1 5 3 3 hmn hmx hm hmd⟩

/-! ### Sum-of-squares helper lemmas -/

lemma sumSq_cons (x : ℚ) (xs : List ℚ) : sumSq (x :: xs) = x * x + sumSq xs := rfl

lemma sumSq_nonneg (l : List ℚ) : 0 ≤ sumSq l := by
  induction l with
  | nil => exact le_refl 0
  | cons x xs ih =>
    rw [sumSq_cons]
    nlinarith [mul_self_nonneg x]

lemma sumSq_eq_zero_iff (l : List ℚ) : sumSq l = 0 ↔ ∀ v ∈ l, v = 0 := by
  induction l with
  | nil => simp [sumSq, sumProd]
  | cons x xs ih =>
    rw [sumSq_cons]
    constructor
    · intro h
      have hx2 : 0 ≤ x * x := mul_self_nonneg x
      have hxs : 0 ≤ sumSq xs := sumSq_nonneg xs
      have hx : x * x = 0 := by linarith
      have hx0 : x = 0 := by nlinarith
      intro v hv
      rcases List.mem_cons.1 hv with rfl | hv
      · exact hx0
      · exact (ih.1 (by linarith)) v hv
    · intro h
      have hx0 : x = 0 := h x (List.mem_cons_self x xs)
      have hxs : sumSq xs = 0 := ih.2 (fun v hv => h v (List.mem_cons_of_mem _ hv))
      rw [hx0, hxs]
      ring

lemma sum_of_const (l : List ℚ) (c : ℚ) (h : ∀ v ∈ l, v = c) :
    l.sum = l.length * c := by
  induction l with
  | nil => simp
  | cons a l ih =>
    have ha : a = c := h a (List.mem_cons_self a l)
    have hl := ih (fun v hv => h v (List.mem_cons_of_mem _ hv))
    simp only [List.sum_cons, List.length_cons, hl, ha]
    push_cast
    ring

lemma meanQ_of_const (l : List ℚ) (c : ℚ) (hne : l.length ≠ 0)
    (h : ∀ v ∈ l, v = c) : meanQ l = c := by
  have hpos : (0 : ℚ) < l.length := by
    exact_mod_cast Nat.pos_of_ne_zero hne
  rw [meanQ, sum_of_const l c h, mul_comm, mul_div_assoc, div_self (ne_of_gt hpos),
    mul_one]

/-! ### C6: stddev is nonnegative and zero iff constant -/

/-- C6: the population standard deviation is always ≥ 0, and is 0 exactly when
all values of the (non-empty) sequence are identical. -/
theorem stddev_nonneg_zero_iff_const (arr : List ℚ) (s : ℝ)
    (h : stddev arr = some s) :
    0 ≤ s ∧ (s = 0 ↔ ∀ v ∈ arr, ∀ w ∈ arr, v = w) := by
  rw [stddev] at h
  by_cases hlen : arr.length = 0
  · rw [if_pos hlen] at h
    exact absurd h (by simp)
  rw [if_neg hlen, Option.some.injEq] at h
  subst h
  refine ⟨Real.sqrt_nonneg _, ?_⟩
  have hq_nonneg : (0 : ℚ) ≤ sumSq (devList arr) / arr.length := by
    have hpos : (0 : ℚ) < arr.length := by
      exact_mod_cast Nat.pos_of_ne_zero hlen
    exact div_nonneg (sumSq_nonneg _) (le_of_lt hpos)
  rw [Real.sqrt_eq_zero (by exact_mod_cast hq_nonneg)]
  have hcast : ((sumSq (devList arr) / arr.length : ℚ) : ℝ) = 0 ↔
      sumSq (devList arr) / (arr.length : ℚ) = 0 := by
    exact_mod_cast Iff.rfl
  rw [hcast]
  have hlenq : ((arr.length : ℚ)) ≠ 0 := by
    exact_mod_cast hlen
  rw [div_eq_zero_iff, or_iff_left hlenq, sumSq_eq_zero_iff]
  constructor
  · intro hall v hv w hw
    have hv0 : v - meanQ arr = 0 :=
      hall _ (List.mem_map.2 ⟨v, hv, rfl⟩)
    have hw0 : w - meanQ arr = 0 :=
      hall _ (List.mem_map.2 ⟨w, hw, rfl⟩)
    linarith
  · intro hconst d hd
    rcases List.mem_map.1 hd with ⟨v, hv, rfl⟩
    cases arr with
    | nil => simp at hv
    | cons x xs =>
      have hvc : v = x := hconst v hv x (List.mem_cons_self x xs)
      have hmean : meanQ (x :: xs) = x :=
        meanQ_of_const (x :: xs) x hlen
          (fun w hw => hconst w hw x (List.mem_cons_self x xs))
      rw [hvc, hmean]
      ring

/-- Witness for C6 on the constant list `[2, 2]`. -/
theorem stddev_nonneg_zero_iff_const_witness :
    stddev [2, 2] = some 0 ∧ (0 : ℝ) ≤ 0 ∧
    ((0 : ℝ) = 0 ↔ ∀ v ∈ ([2, 2] : List ℚ), ∀ w ∈ ([2, 2] : List ℚ), v = w) := by
  have h0 : sumSq (devList ([2, 2] : List ℚ)) / (([2, 2] : List ℚ).length : ℚ) = 0 := by
    norm_num [sumSq, sumProd, devList, meanQ]
  have hs : stddev [2, 2] = some 0 := by
    rw [stddev, if_neg (by norm_num), h0]
    norm_num
  have := stddev_nonneg_zero_iff_const [2, 2] 0 hs
  exact ⟨hs, this.1, this.2⟩

/-! ### Date-filter helper lemmas -/

lemma jslt_none_right (a : Option ℤ) : jslt a none = false := by
  cases a <;> rfl

lemma jsgt_none_right (a : Option ℤ) : jsgt a none = false := by
  cases a <;> rfl

/-! ### C7: date-range filtering is the inclusive-bounds subsequence -/

/-- C7: with valid (or absent) bounds over records with valid dates, the
filter returns exactly the subsequence whose date `d` satisfies `from ≤ d`
when `from` is given and `d ≤ to` when `to` is given — both bounds inclusive —
and returns the input itself when neither bound is given. -/
theorem filterByDateRange_spec (series : List DRec)
    (hd : ∀ s ∈ series, s.date.isSome) :
    filterByDateRange series none none = series ∧
    (∀ f : ℤ, filterByDateRange series (some (some f)) none
      = series.filter fun s => decide (f ≤ s.date.getD 0)) ∧
    (∀ t : ℤ, filterByDateRange series none (some (some t))
      = series.filter fun s => decide (s.date.getD 0 ≤ t)) ∧
    (∀ f t : ℤ, filterByDateRange series (some (some f)) (some (some t))
      = series.filter fun s => decide (f ≤ s.date.getD 0 ∧ s.date.getD 0 ≤ t)) := by
  refine ⟨rfl, fun f => ?_, fun t => ?_, fun f t => ?_⟩
  · rw [filterByDateRange, if_neg (by simp)]
    refine List.filter_congr fun s hs => ?_
    rcases Option.isSome_iff_exists.1 (hd s hs) with ⟨d, hdate⟩
    simp only [hdate, jslt, Option.getD_some, Bool.not_false, Bool.and_true]
    rw [← decide_not]
    exact decide_eq_decide.2 (by omega)
  · rw [filterByDateRange, if_neg (by simp)]
    refine List.filter_congr fun s hs => ?_
    rcases Option.isSome_iff_exists.1 (hd s hs) with ⟨d, hdate⟩
    simp only [hdate, jsgt, Option.getD_some, Bool.not_false, Bool.true_and]
    rw [← decide_not]
    exact decide_eq_decide.2 (by omega)
  · rw [filterByDateRange, if_neg (by simp)]
    refine List.filter_congr fun s hs => ?_
    rcases Option.isSome_iff_exists.1 (hd s hs) with ⟨d, hdate⟩
    simp only [hdate, jslt, jsgt, Option.getD_some]
    rw [← decide_not, ← decide_not, ← Bool.decide_and]
    exact decide_eq_decide.2 (by omega)

/-- Witness for C7: the spec's 10-day daily series filtered to
`from = day 3`, `to = day 5` returns exactly the three records on those
days. -/
theorem filterByDateRange_spec_witness :
    (∀ s ∈ ([⟨some 1, []⟩, ⟨some 2, []⟩, ⟨some 3, []⟩, ⟨some 4, []⟩,
        ⟨some 5, []⟩, ⟨some 6, []⟩, ⟨some 7, []⟩, ⟨some 8, []⟩,
        ⟨some 9, []⟩, ⟨some 10, []⟩] : List DRec), s.date.isSome) ∧
    filterByDateRange [⟨some 1, []⟩, ⟨some 2, []⟩, ⟨some 3, []⟩, ⟨some 4, []⟩,
        ⟨some 5, []⟩, ⟨some 6, []⟩, ⟨some 7, []⟩, ⟨some 8, []⟩,
        ⟨some 9, []⟩, ⟨some 10, []⟩] (some (some 3)) (some (some 5))
      = [⟨some 3, []⟩, ⟨some 4, []⟩, ⟨some 5, []⟩] := by
  have hd : ∀ s ∈ ([⟨some 1, []⟩, ⟨some 2, []⟩, ⟨some 3, []⟩, ⟨some 4, []⟩,
      ⟨some 5, []⟩, ⟨some 6, []⟩, ⟨some 7, []⟩, ⟨some 8, []⟩,
      ⟨some 9, []⟩, ⟨some 10, []⟩] : List DRec), s.date.isSome := by decide
  rw [(filterByDateRange_spec _ hd).2.2.2 3 5]
  decide

/-! ### C10: an unparseable bound behaves as an absent bound -/

/-- C10: a supplied bound that did not parse (`Invalid Date`) makes every date
comparison against it false, so each record passes that check and the output
equals the output with the bound omitted; the comparison never crashes. -/
theorem filterByDateRange_invalid_bound (series : List DRec)
    (fromB toB : Option (Option ℤ)) :
    filterByDateRange series (some none) toB = filterByDateRange series none toB ∧
    filterByDateRange series fromB (some none) = filterByDateRange series fromB none := by
  constructor
  · cases toB with
    | none =>
      rw [filterByDateRange, if_neg (by simp), filterByDateRange, if_pos (by simp)]
      have hp : (fun s : DRec => !(jslt s.date none) && !false) = fun _ => true := by
        funext s
        rw [jslt_none_right]
        rfl
      rw [hp, List.filter_true]
    | some t =>
      rw [filterByDateRange, if_neg (by simp), filterByDateRange, if_neg (by simp)]
      refine List.filter_congr fun s _ => ?_
      simp [jslt_none_right]
  · cases fromB with
    | none =>
      rw [filterByDateRange, if_neg (by simp), filterByDateRange, if_pos (by simp)]
      have hp : (fun s : DRec => !false && !(jsgt s.date none)) = fun _ => true := by
        funext s
        rw [jsgt_none_right]
        rfl
      rw [hp, List.filter_true]
    | some f =>
      rw [filterByDateRange, if_neg (by simp), filterByDateRange, if_neg (by simp)]
      refine List.filter_congr fun s _ => ?_
      simp [jsgt_none_right]

/-! ### Cauchy-Schwarz for the pearson accumulators -/

lemma sumProd_sq_le (l1 l2 : List ℚ) : (sumProd l1 l2) ^ 2 ≤ sumSq l1 * sumSq l2 := by
  induction l1 generalizing l2 with
  | nil =>
    cases l2 <;> simp [sumProd, sumSq]
  | cons a xs ih =>
    cases l2 with
    | nil => simp [sumProd, sumSq]
    | cons b ys =>
      have hP := sumSq_nonneg xs
      have hQ := sumSq_nonneg ys
      have hS := ih ys
      show (a * b + sumProd xs ys) ^ 2 ≤ (a * a + sumSq xs) * (b * b + sumSq ys)
      rcases eq_or_lt_of_le hQ with hQ0 | hQpos
      · have hS0 : sumProd xs ys = 0 := by nlinarith [sq_nonneg (sumProd xs ys)]
        rw [hS0, ← hQ0]
        nlinarith [sq_nonneg (a * b), mul_nonneg hP (sq_nonneg b)]
      · nlinarith [sq_nonneg (a * sumSq ys - b * sumProd xs ys),
          mul_nonneg (sq_nonneg b) (by nlinarith : (0 : ℚ) ≤ sumSq xs * sumSq ys - (sumProd xs ys) ^ 2),
          mul_nonneg (le_of_lt hQpos) (by nlinarith : (0 : ℚ) ≤ sumSq xs * sumSq ys - (sumProd xs ys) ^ 2)]

/-! ### C4: pearson lies in [-1, 1] -/

/-- C4: whatever numeric result `pearson` produces lies in the closed
interval `[-1, 1]` (the degenerate zero-variance case yields `0`). -/
theorem pearson_in_unit_interval (x y : List ℚ) (r : ℝ)
    (h : pearson x y = some r) : -1 ≤ r ∧ r ≤ 1 := by
  rw [pearson] at h
  by_cases hg : x.length ≠ y.length ∨ x.length = 0
  · rw [if_pos hg] at h
    exact absurd h (by simp)
  rw [if_neg hg] at h
  by_cases hz : Real.sqrt ((sumSq (devList x) : ℝ) * (sumSq (devList y) : ℝ)) = 0
  · rw [if_pos hz, Option.some.injEq] at h
    subst h
    norm_num
  · rw [if_neg hz, Option.some.injEq] at h
    subst h
    have hsd_pos : 0 < Real.sqrt ((sumSq (devList x) : ℝ) * (sumSq (devList y) : ℝ)) :=
      lt_of_le_of_ne (Real.sqrt_nonneg _) (Ne.symm hz)
    have hcs : ((sumProd (devList x) (devList y) : ℚ) : ℝ) ^ 2
        ≤ (sumSq (devList x) : ℝ) * (sumSq (devList y) : ℝ) := by
      exact_mod_cast sumProd_sq_le (devList x) (devList y)
    have habs : |((sumProd (devList x) (devList y) : ℚ) : ℝ)|
        ≤ Real.sqrt ((sumSq (devList x) : ℝ) * (sumSq (devList y) : ℝ)) := by
      rw [← Real.sqrt_sq_eq_abs]
      exact Real.sqrt_le_sqrt hcs
    have hq : |((sumProd (devList x) (devList y) : ℚ) : ℝ) /
        Real.sqrt ((sumSq (devList x) : ℝ) * (sumSq (devList y) : ℝ))| ≤ 1 := by
      rw [abs_div, abs_of_pos hsd_pos]
      exact (div_le_one hsd_pos).2 habs
    exact abs_le.1 hq

/-- Witness for C4 at `x = [1,2,3,4,5]`, `y = [5,4,3,2,1]` (r = -1). -/
theorem pearson_in_unit_interval_witness :
    pearson [1, 2, 3, 4, 5] [5, 4, 3, 2, 1] = some (-1) ∧
    (-1 : ℝ) ≤ -1 ∧ (-1 : ℝ) ≤ 1 :=
  ⟨pearson_ones_to_five,
    (pearson_in_unit_interval [1, 2, 3, 4, 5] [5, 4, 3, 2, 1] (-1) pearson_ones_to_five).1,
    (pearson_in_unit_interval [1, 2, 3, 4, 5] [5, 4, 3, 2, 1] (-1) pearson_ones_to_five).2⟩

/-! ### Affine-transform helper lemmas -/

lemma sum_map_affine (l : List ℚ) (a b : ℚ) :
    (l.map fun v => a * v + b).sum = a * l.sum + b * l.length := by
  induction l with
  | nil => simp
  | cons c l ih =>
    simp only [List.map_cons, List.sum_cons, List.length_cons, ih]
    push_cast
    ring

lemma meanQ_map_affine (l : List ℚ) (a b : ℚ) (h : l.length ≠ 0) :
    meanQ (l.map fun v => a * v + b) = a * meanQ l + b := by
  have hlen : ((l.length : ℚ)) ≠ 0 := by exact_mod_cast h
  rw [meanQ, meanQ, List.length_map, sum_map_affine]
  field_simp

lemma devList_map_affine (l : List ℚ) (a b : ℚ) (h : l.length ≠ 0) :
    devList (l.map fun v => a * v + b) = (devList l).map fun v => a * v := by
  rw [devList, devList, List.map_map, List.map_map, meanQ_map_affine l a b h]
  refine List.map_congr_left fun v _ => ?_
  simp only [Function.comp_apply]
  ring

lemma sumProd_map_right_mul (l1 l2 : List ℚ) (a : ℚ) :
    sumProd l1 (l2.map fun v => a * v) = a * sumProd l1 l2 := by
  induction l1 generalizing l2 with
  | nil => cases l2 <;> simp [sumProd]
  | cons c xs ih =>
    cases l2 with
    | nil => simp [sumProd]
    | cons d ys =>
      simp only [List.map_cons, sumProd, ih]
      ring

lemma sumSq_map_mul (l : List ℚ) (a : ℚ) :
    sumSq ((l.map fun v => a * v)) = a ^ 2 * sumSq l := by
  induction l with
  | nil => simp [sumSq, sumProd]
  | cons c xs ih =>
    simp only [List.map_cons, sumSq, sumProd] at ih ⊢
    rw [ih]
    ring

/-! ### C9: pearson is invariant under positive affine transforms -/

/-- C9: for `a > 0`, `pearson(x, map(v ↦ a·v + b, y)) = pearson(x, y)`. -/
theorem pearson_affine_invariant (x y : List ℚ) (a b : ℚ) (ha : 0 < a) :
    pearson x (y.map fun v => a * v + b) = pearson x y := by
  unfold pearson
  rw [List.length_map]
  by_cases hg : x.length ≠ y.length ∨ x.length = 0
  · rw [if_pos hg, if_pos hg]
  · rw [if_neg hg, if_neg hg]
    push_neg at hg
    have hylen : y.length ≠ 0 := by omega
    rw [devList_map_affine y a b hylen, sumProd_map_right_mul, sumSq_map_mul]
    have haR : (0 : ℝ) < (a : ℝ) := by exact_mod_cast ha
    have hcast : ((a ^ 2 * sumSq (devList y) : ℚ) : ℝ)
        = (a : ℝ) ^ 2 * (sumSq (devList y) : ℝ) := by push_cast; ring
    rw [hcast]
    have hsqrt : Real.sqrt ((sumSq (devList x) : ℝ) *
        ((a : ℝ) ^ 2 * (sumSq (devList y) : ℝ)))
        = (a : ℝ) * Real.sqrt ((sumSq (devList x) : ℝ) * (sumSq (devList y) : ℝ)) := by
      rw [show (sumSq (devList x) : ℝ) * ((a : ℝ) ^ 2 * (sumSq (devList y) : ℝ))
          = (a : ℝ) ^ 2 * ((sumSq (devList x) : ℝ) * (sumSq (devList y) : ℝ)) by ring]
      rw [Real.sqrt_mul (sq_nonneg _), Real.sqrt_sq (le_of_lt haR)]
    rw [hsqrt]
    by_cases hz : Real.sqrt ((sumSq (devList x) : ℝ) * (sumSq (devList y) : ℝ)) = 0
    · rw [if_pos (by rw [hz]; ring), if_pos hz]
    · rw [if_neg (mul_ne_zero (ne_of_gt haR) hz), if_neg hz]
      congr 1
      push_cast
      rw [mul_div_mul_left _ _ (ne_of_gt haR)]

/-- Witness for C9 at `x = [1,2]`, `y = [1,3]`, `a = 2`, `b = 5`. -/
theorem pearson_affine_invariant_witness :
    (0 : ℚ) < 2 ∧
    pearson [1, 2] (([1, 3] : List ℚ).map fun v => 2 * v + 5) = pearson [1, 2] [1, 3] :=
  ⟨by norm_num, pearson_affine_invariant [1, 2] [1, 3] 2 5 (by norm_num)⟩

end Server
